import Mathlib

/-
  Shallow embedding of the Gnosis mind-map visualization engine
  (components/mind-map.tsx): topology analysis (depth/island BFS),
  the SimNode merge performed on every nodes/edges update, SimLink
  construction, depth/island coloring, the viewport transform and
  hit-testing, and the per-frame scale animation step.

  Numeric values are modelled as exact rationals (the source uses JS
  doubles); JS `Map<string, T>` is modelled extensionally as
  `String → Option T`, with `set` overwriting; the BFS `while` loop is
  given explicit fuel (`edges.length + 1` iterations, enough because
  every dequeue corresponds to a distinct enqueue, and enqueues beyond
  the seed each claim a previously-unassigned edge target).
-/

namespace Gnosis

/-- Node type `"root" | "generated"` from the GraphNode schema. -/
inductive NodeType where
  | root
  | generated
deriving DecidableEq

/-- External graph node (`GraphNode` in lib/api/schemas): `id`, `label`,
`type`, optional `reason`.  The source field `type` is a Lean keyword and
is named `ntype` here. -/
structure GraphNode where
  id : String
  label : String
  ntype : NodeType
  reason : Option String
deriving DecidableEq

/-- External graph edge (`GraphEdge`): `source` id, `target` id, optional
`label`. -/
structure GraphEdge where
  source : String
  target : String
  label : Option String
deriving DecidableEq

/-- A JS `Map<string, number>` modelled extensionally. -/
abbrev IdMap := String → Option Nat

def IdMap.empty : IdMap := fun _ => none

/-- Insertion `map.set(k, v)` — overwrites any existing entry. -/
def IdMap.set (m : IdMap) (k : String) (v : Nat) : IdMap :=
  fun x => if x = k then some v else m x

/-- One entry of the BFS queue: `{ id, depth }`. -/
structure QItem where
  id : String
  depth : Nat
deriving DecidableEq

/-- The inner `for (const childId of children)` loop of
`calculateDepthsAndIslands`: each child not yet in `depthMap` is assigned
`current.depth + 1` and the island index, and pushed onto the queue. -/
def bfsKids (islandIndex : Nat) (newDepth : Nat) :
    List String → IdMap → IdMap → List QItem → IdMap × IdMap × List QItem
  | [], dm, im, q => (dm, im, q)
  | c :: cs, dm, im, q =>
    if (dm c).isSome then
      bfsKids islandIndex newDepth cs dm im q
    else
      bfsKids islandIndex newDepth cs (dm.set c newDepth) (im.set c islandIndex)
        (q ++ [⟨c, newDepth⟩])

/-- The `while (queue.length > 0)` loop of `calculateDepthsAndIslands`:
dequeue `current` from the front, compute
`children = edges.filter(e => e.source === current.id).map(e => e.target)`
(the source follows edges in the source→target direction only), and run
the child loop.  `fuel` bounds the number of iterations; the caller
passes `edges.length + 1`, which is enough because every iteration
dequeues one item and items are enqueued at most once per id. -/
def bfsLoop (edges : List GraphEdge) (islandIndex : Nat) :
    Nat → IdMap → IdMap → List QItem → IdMap × IdMap
  | 0, dm, im, _ => (dm, im)
  | _ + 1, dm, im, [] => (dm, im)
  | fuel + 1, dm, im, current :: rest =>
    let children := (edges.filter (fun e => e.source == current.id)).map (fun e => e.target)
    let r := bfsKids islandIndex (current.depth + 1) children dm im rest
    bfsLoop edges islandIndex fuel r.1 r.2.1 r.2.2

/-- The `rootNodes.forEach((rootNode, islandIndex) => ...)` loop: each
root is seeded with depth 0 and a fresh island index — note the seed
`depthMap.set(rootNode.id, 0)` / `islandMap.set(rootNode.id, islandIndex)`
is unconditional, overwriting any assignment made by an earlier root's
traversal — and then its BFS runs. -/
def runIslands (edges : List GraphEdge) (fuel : Nat) :
    List (Nat × GraphNode) → IdMap → IdMap → IdMap × IdMap
  | [], dm, im => (dm, im)
  | (islandIndex, rootNode) :: rest, dm, im =>
    let dm1 := dm.set rootNode.id 0
    let im1 := im.set rootNode.id islandIndex
    let r := bfsLoop edges islandIndex fuel dm1 im1 [⟨rootNode.id, 0⟩]
    runIslands edges fuel rest r.1 r.2

/-- Topology analysis `calculateDepthsAndIslands(nodes, edges)` — returns
the depth map and island map.  The source's early return for zero roots
produces the same empty maps as folding over the empty root list. -/
def calculateDepthsAndIslands (nodes : List GraphNode) (edges : List GraphEdge) :
    IdMap × IdMap :=
  let rootNodes := nodes.filter (fun n => n.ntype == NodeType.root)
  runIslands edges (edges.length + 1) rootNodes.enum IdMap.empty IdMap.empty

/-- Internal simulation node (`SimNode`): the GraphNode fields plus the
derived `depth` / `islandIndex` and the layout/animation state.  `x`, `y`,
`vx`, `vy` are the d3 simulation position/velocity (optional in the
source; modelled as total rationals, with the merge never writing them
for an existing node). -/
structure SimNode where
  id : String
  label : String
  ntype : NodeType
  reason : Option String
  depth : Nat
  islandIndex : Nat
  x : ℚ
  y : ℚ
  vx : ℚ
  vy : ℚ
  entranceProgress : ℚ
  entranceStartTime : ℚ
  scale : ℚ
  glowIntensity : ℚ
  pulsePhase : ℚ
deriving DecidableEq

/-- Internal simulation link (`SimLink`): resolved source/target SimNode
references plus the optional label. -/
structure SimLink where
  source : SimNode
  target : SimNode
  label : Option String
deriving DecidableEq

/-- Lookup in `new Map(simNodes.map(n => [n.id, n]))` — with duplicate
ids the later entry overwrites the earlier, so lookup prefers the
rightmost match. -/
def simNodeMap : List SimNode → String → Option SimNode
  | [], _ => none
  | n :: rest, k =>
    match simNodeMap rest k with
    | some m => some m
    | none => if k = n.id then some n else none

/-- The per-node body of the update effect's `nodes.map(...)` (the SimNode
merge): an id with an existing SimNode is updated in place (only `label`,
`type`, `reason`, `depth`, `islandIndex` are written); a fresh id gets a
new SimNode at the viewport center plus random jitter (the jitter summand
`(Math.random() - 0.5) * 50` and the random `pulsePhase` are modelled as
the parameters `jitter` and `phase`).  `isNew` is
`!prevNodeIds.has(node.id) && prevNodeIds.size > 0`. -/
def mergeOne (prevNodeIds : List String) (existingNodes : String → Option SimNode)
    (depthMap islandMap : IdMap) (now width height : ℚ)
    (jitter : String → ℚ × ℚ) (phase : String → ℚ) (node : GraphNode) : SimNode :=
  let isNew := !(prevNodeIds.contains node.id) && !(prevNodeIds.isEmpty)
  match existingNodes node.id with
  | some existing =>
    { existing with
      label := node.label
      ntype := node.ntype
      reason := node.reason
      depth := (depthMap node.id).getD 0
      islandIndex := (islandMap node.id).getD 0 }
  | none =>
    { id := node.id
      label := node.label
      ntype := node.ntype
      reason := node.reason
      depth := (depthMap node.id).getD 0
      islandIndex := (islandMap node.id).getD 0
      x := width / 2 + (jitter node.id).1
      y := height / 2 + (jitter node.id).2
      vx := 0
      vy := 0
      entranceProgress := if isNew then 0 else 1
      entranceStartTime := if isNew then now else 0
      scale := 1
      glowIntensity := 0.4
      pulsePhase := phase node.id }

/-- The engine state carried across updates: `simNodesRef`, `simLinksRef`
and `prevNodeIdsRef` (the previous update's node-id set, modelled as the
list of ids). -/
structure MindMapState where
  simNodes : List SimNode
  simLinks : List SimLink
  prevNodeIds : List String
deriving DecidableEq

def MindMapState.empty : MindMapState := ⟨[], [], []⟩

/-- SimNode list produced by the update effect's `nodes.map(...)`:
every node is merged against the existing map, with the freshly computed
depth/island maps. -/
def newSimNodesOf (st : MindMapState) (nodes : List GraphNode) (edges : List GraphEdge)
    (now width height : ℚ) (jitter : String → ℚ × ℚ) (phase : String → ℚ) :
    List SimNode :=
  nodes.map
    (mergeOne st.prevNodeIds (simNodeMap st.simNodes)
      (calculateDepthsAndIslands nodes edges).1 (calculateDepthsAndIslands nodes edges).2
      now width height jitter phase)

/-- SimLink list produced by the update effect: only edges whose `source`
and `target` both resolve in the new SimNode map are kept
(`edges.filter(e => nodeMap.has(e.source) && nodeMap.has(e.target))`
followed by resolution with the non-null assertion, modelled as a single
`filterMap`). -/
def newSimLinksOf (st : MindMapState) (nodes : List GraphNode) (edges : List GraphEdge)
    (now width height : ℚ) (jitter : String → ℚ × ℚ) (phase : String → ℚ) :
    List SimLink :=
  edges.filterMap fun e =>
    match simNodeMap (newSimNodesOf st nodes edges now width height jitter phase) e.source,
        simNodeMap (newSimNodesOf st nodes edges now width height jitter phase) e.target with
    | some s, some t => some ⟨s, t, e.label⟩
    | _, _ => none

/-- One run of the simulation-update effect: compute depth/island maps,
merge SimNodes keyed by id, rebuild SimLinks, and record the current
node-id set as the next update's previous set. -/
def updateState (st : MindMapState) (nodes : List GraphNode) (edges : List GraphEdge)
    (now width height : ℚ) (jitter : String → ℚ × ℚ) (phase : String → ℚ) :
    MindMapState :=
  { simNodes := newSimNodesOf st nodes edges now width height jitter phase
    simLinks := newSimLinksOf st nodes edges now width height jitter phase
    prevNodeIds := nodes.map (fun n => n.id) }

/-! ### Colors -/

/-- Hue component of `getColorByDepth`:
`Math.round(startHue + (endHue - startHue) * min(depth / maxDepth, 1))`
with startHue 0, endHue 270, maxDepth 8. -/
def depthHue (depth : Nat) : ℤ :=
  round ((0 : ℚ) + (270 - 0) * min ((depth : ℚ) / 8) 1)

/-- Saturation component of `getColorByDepth`: 85, reduced by 5 per depth
step beyond maxDepth 8, floored at 50. -/
def depthSat (depth : Nat) : ℤ :=
  if depth > 8 then max 50 (85 - ((depth : ℤ) - 8) * 5) else 85

/-- Formats the `hsl(h, s%, l%)` template string. -/
def hslString (h s l : ℤ) : String :=
  "hsl(" ++ toString h ++ ", " ++ toString s ++ "%, " ++ toString l ++ "%)"

/-- Color `getColorByDepth(depth)` — hue interpolated warm→cool, fixed
lightness 55. -/
def getColorByDepth (depth : Nat) : String :=
  hslString (depthHue depth) (depthSat depth) 55

/-- Hue offset table `ISLAND_HUE_OFFSETS`. -/
def ISLAND_HUE_OFFSETS : List ℤ := [0, 120, 240, 60, 180, 300, 30, 150, 270, 90]

/-- Color `getColorByDepthAndIsland(depth, islandIndex)`: island 0 keeps the
base color; other islands rotate the hue by the offset table entry at
`islandIndex % 10`, mod 360.  The source re-parses the base color's
`hsl(h, s%, l%)` string with a regex; since `getColorByDepth` always
emits exactly that shape with components `depthHue`/`depthSat`/55, the
parse recovers those components, which are used directly here. -/
def getColorByDepthAndIsland (depth : Nat) (islandIndex : Nat) : String :=
  if islandIndex = 0 then getColorByDepth depth
  else
    let hueOffset := (ISLAND_HUE_OFFSETS.getD (islandIndex % ISLAND_HUE_OFFSETS.length) 0)
    hslString ((depthHue depth + hueOffset) % 360) (depthSat depth) 55

/-- The render loop's node color choice (line
`const color = expandingNodeId === node.id ? "#f59e0b" : getColorByDepthAndIsland(...)`). -/
def nodeColor (expandingNodeId : Option String) (n : SimNode) : String :=
  if expandingNodeId = some n.id then "#f59e0b"
  else getColorByDepthAndIsland n.depth n.islandIndex

/-! ### Viewport transform and picking -/

/-- A d3 `ZoomTransform`: translation `(x, y)` and uniform scale `k`.
The zoom behavior clamps `k` to the scale extent `[0.2, 5]`. -/
structure Transform where
  x : ℚ
  y : ℚ
  k : ℚ
deriving DecidableEq

def NODE_RADIUS : ℚ := 12
def HIT_RADIUS : ℚ := 40

/-- The render loop applies `ctx.translate(transform.x, transform.y)` then
`ctx.scale(transform.k, transform.k)`, so a simulation point `p` is drawn
at surface point `p * k + (x, y)`. -/
def toScreen (t : Transform) (p : ℚ × ℚ) : ℚ × ℚ :=
  (p.1 * t.k + t.x, p.2 * t.k + t.y)

/-- The inverse mapping used by `findNodeAtPosition`:
`graph = (screen - (x, y)) / k`. -/
def toSimulation (t : Transform) (p : ℚ × ℚ) : ℚ × ℚ :=
  ((p.1 - t.x) / t.k, (p.2 - t.y) / t.k)

/-- Scan loop of `findNodeAtPosition`: return the first node (in list
order) whose Euclidean distance to the graph-space point is
`< HIT_RADIUS`.  The source compares `Math.sqrt(dx*dx + dy*dy) < HIT_RADIUS`;
since both sides are nonnegative this is equivalent to the squared
comparison used here.  The source reads `node.x ?? 0`; the model's
coordinates are total. -/
def findNodeAtPositionAux (graphX graphY : ℚ) : List SimNode → Option SimNode
  | [] => none
  | node :: rest =>
    if (node.x - graphX) ^ 2 + (node.y - graphY) ^ 2 < HIT_RADIUS ^ 2 then some node
    else findNodeAtPositionAux graphX graphY rest

/-- Hit test `findNodeAtPosition(screenX, screenY)`: convert the surface
point to graph coordinates via the current transform, then scan. -/
def findNodeAtPosition (t : Transform) (sims : List SimNode)
    (screenX screenY : ℚ) : Option SimNode :=
  findNodeAtPositionAux ((screenX - t.x) / t.k) ((screenY - t.y) / t.k) sims

/-- Click handler `handleCanvasClick`: suppressed while `isExpanding`; otherwise a hit
fires `onNodeClick` with the node's original GraphNode payload
`{ id, label, type, reason }`.  The returned value models the payload
passed to `onNodeClick` (`none` = no call). -/
def handleCanvasClick (isExpanding : Bool) (t : Transform) (sims : List SimNode)
    (x y : ℚ) : Option GraphNode :=
  if isExpanding then none
  else
    match findNodeAtPosition t sims x y with
    | some hit => some ⟨hit.id, hit.label, hit.ntype, hit.reason⟩
    | none => none

/-! ### Per-frame scale animation -/

/-- The render loop's target scale selection:
`if (isNodeExpanding) targetScale = 1.25; else if (isHovered) targetScale = 1.15;`
with default 1. -/
def targetScaleOf (isNodeExpanding isHovered : Bool) : ℚ :=
  if isNodeExpanding then 1.25 else if isHovered then 1.15 else 1

/-- The render loop's per-frame scale update:
`node.scale += (targetScale - node.scale) * 0.2`.  Note the update does
not involve the frame time `dt`. -/
def stepScale (scale targetScale : ℚ) : ℚ :=
  scale + (targetScale - scale) * 0.2

/-! ### Concrete inputs used by examples and witnesses -/

def gA : GraphNode := ⟨"A", "A", NodeType.root, none⟩
def gB : GraphNode := ⟨"B", "B", NodeType.generated, none⟩
def gBroot : GraphNode := ⟨"B", "B", NodeType.root, none⟩
def gU : GraphNode := ⟨"U", "U", NodeType.generated, none⟩
def eAB : GraphEdge := ⟨"A", "B", none⟩
def eBA : GraphEdge := ⟨"B", "A", none⟩
def eAZ : GraphEdge := ⟨"A", "Z", none⟩
def jz : String → ℚ × ℚ := fun _ => (0, 0)
def phz : String → ℚ := fun _ => 0

def mkSim (id : String) (x y : ℚ) : SimNode :=
  { id := id, label := id, ntype := NodeType.generated, reason := none,
    depth := 0, islandIndex := 0, x := x, y := y, vx := 0, vy := 0,
    entranceProgress := 1, entranceStartTime := 0, scale := 1,
    glowIntensity := 0.4, pulsePhase := 0 }

/-! ### Specification-side relations used to state the theorems -/

/-- Directed reachability along the edge list, following edges from
`source` to `target` (the direction the BFS actually follows). -/
inductive Reaches (edges : List GraphEdge) : String → String → Prop where
  | refl (a : String) : Reaches edges a a
  | step {a b c : String} (hab : Reaches edges a b) (e : GraphEdge)
      (he : e ∈ edges) (hs : e.source = b) (ht : e.target = c) : Reaches edges a c

/-- Map extension: every entry of `m` is still present (with the same
value) in `m'`. -/
def IdMap.Extends (m m' : IdMap) : Prop :=
  ∀ k v, m k = some v → m' k = some v

/-- Soundness of a depth-map entry with respect to the root `rid`: the id
is the root at depth 0, or some input edge points at it from an id whose
recorded depth is one less. -/
def GoodEntry (edges : List GraphEdge) (rid : String) (m : IdMap)
    (c : String) (d : Nat) : Prop :=
  (c = rid ∧ d = 0) ∨
    ∃ e ∈ edges, e.target = c ∧ ∃ d', m e.source = some d' ∧ d = d' + 1

/-! ## Helper lemmas -/

/-- A successful lookup in the SimNode map returns a member of the list. -/
theorem simNodeMap_mem : ∀ {sims : List SimNode} {k : String} {n : SimNode},
    simNodeMap sims k = some n → n ∈ sims := by
  intro sims
  induction sims with
  | nil => intro k n h; simp [simNodeMap] at h
  | cons a rest ih =>
    intro k n h
    simp only [simNodeMap] at h
    cases hr : simNodeMap rest k with
    | some m =>
      rw [hr] at h
      simp only [Option.some.injEq] at h
      exact List.mem_cons_of_mem a (h ▸ ih hr)
    | none =>
      rw [hr] at h
      by_cases hk : k = a.id
      · rw [if_pos hk] at h
        simp only [Option.some.injEq] at h
        exact h ▸ List.mem_cons_self a rest
      · rw [if_neg hk] at h
        cases h

/-- A successful lookup in the SimNode map returns a node carrying the
looked-up id. -/
theorem simNodeMap_id : ∀ {sims : List SimNode} {k : String} {n : SimNode},
    simNodeMap sims k = some n → n.id = k := by
  intro sims
  induction sims with
  | nil => intro k n h; simp [simNodeMap] at h
  | cons a rest ih =>
    intro k n h
    simp only [simNodeMap] at h
    cases hr : simNodeMap rest k with
    | some m =>
      rw [hr] at h
      simp only [Option.some.injEq] at h
      exact h ▸ ih hr
    | none =>
      rw [hr] at h
      by_cases hk : k = a.id
      · rw [if_pos hk] at h
        simp only [Option.some.injEq] at h
        rw [← h, hk]
      · rw [if_neg hk] at h
        cases h

/-- The merge always emits a SimNode carrying the merged GraphNode's id. -/
theorem mergeOne_id (sims : List SimNode) (prevIds : List String) (dm im : IdMap)
    (now wd ht : ℚ) (jit : String → ℚ × ℚ) (ph : String → ℚ) (node : GraphNode) :
    (mergeOne prevIds (simNodeMap sims) dm im now wd ht jit ph node).id = node.id := by
  unfold mergeOne
  cases hex : simNodeMap sims node.id with
  | none => simp
  | some ex => simpa using simNodeMap_id hex

/-- If a node sits exactly at the probe point and every other listed node
is at least `HIT_RADIUS` away, the scan returns that node. -/
theorem findAux_hits {gx gy : ℚ} {N : SimNode} :
    ∀ sims : List SimNode, N ∈ sims → N.x = gx → N.y = gy →
      (∀ M ∈ sims, M ≠ N → HIT_RADIUS ^ 2 ≤ (M.x - gx) ^ 2 + (M.y - gy) ^ 2) →
      findNodeAtPositionAux gx gy sims = some N := by
  intro sims
  induction sims with
  | nil => intro h; simp at h
  | cons a rest ih =>
    intro hmem hx hy hfar
    by_cases hpred : (a.x - gx) ^ 2 + (a.y - gy) ^ 2 < HIT_RADIUS ^ 2
    · rw [findNodeAtPositionAux, if_pos hpred]
      by_cases han : a = N
      · rw [han]
      · exact absurd hpred (not_lt.mpr (hfar a (List.mem_cons_self a rest) han))
    · rw [findNodeAtPositionAux, if_neg hpred]
      have hNr : N ∈ rest := by
        rcases List.mem_cons.mp hmem with h | h
        · exfalso
          apply hpred
          rw [← h, hx, hy]
          norm_num [HIT_RADIUS]
        · exact h
      exact ih hNr hx hy (fun M hM hne => hfar M (List.mem_cons_of_mem a hM) hne)

/-- The child loop never modifies an existing assignment: children are
assigned only under `!depthMap.has(childId)`. -/
theorem bfsKids_preserve (island nd : Nat) :
    ∀ (cs : List String) (dm im : IdMap) (q : List QItem) (k : String),
      (dm k).isSome →
      (bfsKids island nd cs dm im q).1 k = dm k ∧
        (bfsKids island nd cs dm im q).2.1 k = im k := by
  intro cs
  induction cs with
  | nil => intro dm im q k _; exact ⟨rfl, rfl⟩
  | cons c cs ih =>
    intro dm im q k hk
    by_cases hc : (dm c).isSome
    · rw [bfsKids, if_pos hc]
      exact ih dm im q k hk
    · rw [bfsKids, if_neg hc]
      have hkc : k ≠ c := by
        intro h
        rw [h] at hk
        exact hc hk
      have h1 : (dm.set c nd) k = dm k := by
        simp only [IdMap.set]
        rw [if_neg hkc]
      have h2 : (im.set c island) k = im k := by
        simp only [IdMap.set]
        rw [if_neg hkc]
      have hk' : ((dm.set c nd) k).isSome := by rw [h1]; exact hk
      obtain ⟨ha, hb⟩ := ih (dm.set c nd) (im.set c island) (q ++ [⟨c, nd⟩]) k hk'
      exact ⟨ha.trans h1, hb.trans h2⟩

/-- The BFS while-loop never modifies an existing assignment. -/
theorem bfsLoop_preserve (edges : List GraphEdge) (island : Nat) :
    ∀ (fuel : Nat) (dm im : IdMap) (q : List QItem) (k : String),
      (dm k).isSome →
      (bfsLoop edges island fuel dm im q).1 k = dm k ∧
        (bfsLoop edges island fuel dm im q).2 k = im k := by
  intro fuel
  induction fuel with
  | zero => intro dm im q k _; exact ⟨rfl, rfl⟩
  | succ fuel ih =>
    intro dm im q k hk
    cases q with
    | nil => exact ⟨rfl, rfl⟩
    | cons current rest =>
      simp only [bfsLoop]
      set kids := bfsKids island (current.depth + 1)
        ((edges.filter (fun e => e.source == current.id)).map (fun e => e.target))
        dm im rest with hkids
      obtain ⟨h1, h2⟩ := bfsKids_preserve island (current.depth + 1)
        ((edges.filter (fun e => e.source == current.id)).map (fun e => e.target))
        dm im rest k hk
      rw [← hkids] at h1 h2
      have hk' : (kids.1 k).isSome := by rw [h1]; exact hk
      obtain ⟨ha, hb⟩ := ih kids.1 kids.2.1 kids.2.2 k hk'
      exact ⟨ha.trans h1, hb.trans h2⟩

/-- GoodEntry only reads the map positively, so it survives extension. -/
theorem goodEntry_mono {edges : List GraphEdge} {rid : String} {m m' : IdMap}
    {c : String} {d : Nat} (hExt : IdMap.Extends m m')
    (h : GoodEntry edges rid m c d) : GoodEntry edges rid m' c d := by
  rcases h with h | ⟨e, he, ht, d', hs, hd⟩
  · exact Or.inl h
  · exact Or.inr ⟨e, he, ht, d', hExt _ _ hs, hd⟩

/-- The child loop only adds entries, never removes or changes any. -/
theorem bfsKids_extends (island nd : Nat) :
    ∀ (cs : List String) (dm im : IdMap) (q : List QItem),
      IdMap.Extends dm (bfsKids island nd cs dm im q).1 := by
  intro cs
  induction cs with
  | nil => intro dm im q k v hkv; exact hkv
  | cons c cs ih =>
    intro dm im q k v hkv
    by_cases hc : (dm c).isSome
    · rw [bfsKids, if_pos hc]
      exact ih dm im q k v hkv
    · rw [bfsKids, if_neg hc]
      apply ih
      have hkc : k ≠ c := by
        intro h
        rw [← h, hkv] at hc
        exact hc rfl
      simp only [IdMap.set]
      rw [if_neg hkc]
      exact hkv

/-- Every entry added by the child loop for children of `src` (which
carries recorded depth `d0`) is Good: it is witnessed by an input edge
out of `src`, whose recorded depth persists. -/
theorem bfsKids_good (edges : List GraphEdge) (rid : String) (island : Nat)
    (src : String) (d0 : Nat) :
    ∀ (cs : List String) (dm im : IdMap) (q : List QItem),
      (∀ c ∈ cs, ∃ e ∈ edges, e.source = src ∧ e.target = c) →
      dm src = some d0 →
      (∀ c d, dm c = some d → GoodEntry edges rid dm c d) →
      ∀ c d, (bfsKids island (d0 + 1) cs dm im q).1 c = some d →
        GoodEntry edges rid (bfsKids island (d0 + 1) cs dm im q).1 c d := by
  intro cs
  induction cs with
  | nil => intro dm im q _ _ hinv c d hcd; exact hinv c d hcd
  | cons c0 cs ih =>
    intro dm im q hcs hsrc hinv c d hcd
    by_cases hc : (dm c0).isSome
    · rw [bfsKids, if_pos hc] at hcd ⊢
      exact ih dm im q (fun c' hc' => hcs c' (List.mem_cons_of_mem _ hc'))
        hsrc hinv c d hcd
    · rw [bfsKids, if_neg hc] at hcd ⊢
      have hne : src ≠ c0 := by
        intro h
        rw [← h, hsrc] at hc
        exact hc rfl
      have hext0 : IdMap.Extends dm (dm.set c0 (d0 + 1)) := by
        intro k v hkv
        have hk : k ≠ c0 := by
          intro h
          rw [← h, hkv] at hc
          exact hc rfl
        simp only [IdMap.set]
        rw [if_neg hk]
        exact hkv
      have hsrc' : (dm.set c0 (d0 + 1)) src = some d0 := hext0 _ _ hsrc
      have hinv' : ∀ c' d', (dm.set c0 (d0 + 1)) c' = some d' →
          GoodEntry edges rid (dm.set c0 (d0 + 1)) c' d' := by
        intro c' d' h'
        by_cases hcc : c' = c0
        · subst hcc
          have hd' : d' = d0 + 1 := by
            simp [IdMap.set] at h'
            omega
          obtain ⟨e, he, hes, het⟩ := hcs c' (List.mem_cons_self c' cs)
          exact Or.inr ⟨e, he, het, d0, by rw [hes]; exact hsrc', hd'⟩
        · have hold : dm c' = some d' := by
            simp only [IdMap.set] at h'
            rw [if_neg hcc] at h'
            exact h'
          exact goodEntry_mono hext0 (hinv c' d' hold)
      exact ih (dm.set c0 (d0 + 1)) (im.set c0 island) (q ++ [⟨c0, d0 + 1⟩])
        (fun c' hc' => hcs c' (List.mem_cons_of_mem _ hc')) hsrc' hinv' c d hcd

/-- After the child loop, every queued item's recorded depth matches its
map entry. -/
theorem bfsKids_queue (island nd : Nat) :
    ∀ (cs : List String) (dm im : IdMap) (q : List QItem),
      (∀ qi ∈ q, dm qi.id = some qi.depth) →
      ∀ qi ∈ (bfsKids island nd cs dm im q).2.2,
        (bfsKids island nd cs dm im q).1 qi.id = some qi.depth := by
  intro cs
  induction cs with
  | nil => intro dm im q hq qi hqi; exact hq qi hqi
  | cons c0 cs ih =>
    intro dm im q hq qi hqi
    by_cases hc : (dm c0).isSome
    · rw [bfsKids, if_pos hc] at hqi ⊢
      exact ih dm im q hq qi hqi
    · rw [bfsKids, if_neg hc] at hqi ⊢
      refine ih (dm.set c0 nd) (im.set c0 island) (q ++ [⟨c0, nd⟩]) ?_ qi hqi
      intro qj hqj
      rcases List.mem_append.mp hqj with h | h
      · have hqd := hq qj h
        have hne : qj.id ≠ c0 := by
          intro hh
          rw [← hh, hqd] at hc
          exact hc rfl
        simp only [IdMap.set]
        rw [if_neg hne]
        exact hqd
      · have hqj' : qj = ⟨c0, nd⟩ := by simpa using h
        rw [hqj']
        simp [IdMap.set]

/-- Through the BFS while-loop, every map entry stays Good with respect
to the final map, provided the initial entries are Good and every queued
item's depth matches its entry. -/
theorem bfsLoop_good (edges : List GraphEdge) (rid : String) (island : Nat) :
    ∀ (fuel : Nat) (dm im : IdMap) (q : List QItem),
      (∀ c d, dm c = some d → GoodEntry edges rid dm c d) →
      (∀ qi ∈ q, dm qi.id = some qi.depth) →
      ∀ c d, (bfsLoop edges island fuel dm im q).1 c = some d →
        GoodEntry edges rid (bfsLoop edges island fuel dm im q).1 c d := by
  intro fuel
  induction fuel with
  | zero => intro dm im q hinv _ c d hcd; exact hinv c d hcd
  | succ fuel ih =>
    intro dm im q hinv hq c d hcd
    cases q with
    | nil => exact hinv c d hcd
    | cons current rest =>
      simp only [bfsLoop] at hcd ⊢
      set children :=
        (edges.filter (fun e => e.source == current.id)).map (fun e => e.target)
        with hch
      have hcs : ∀ c' ∈ children, ∃ e ∈ edges, e.source = current.id ∧ e.target = c' := by
        intro c' hc'
        rw [hch, List.mem_map] at hc'
        obtain ⟨e, he, het⟩ := hc'
        rw [List.mem_filter] at he
        exact ⟨e, he.1, by simpa using he.2, het⟩
      have hsrc : dm current.id = some current.depth :=
        hq current (List.mem_cons_self _ _)
      have hrest : ∀ qi ∈ rest, dm qi.id = some qi.depth :=
        fun qi hqi => hq qi (List.mem_cons_of_mem _ hqi)
      exact ih _ _ _
        (bfsKids_good edges rid island current.id current.depth children dm im rest
          hcs hsrc hinv)
        (bfsKids_queue island (current.depth + 1) children dm im rest hrest)
        c d hcd

/-- With no edges, reachability collapses to equality. -/
theorem reaches_nil_eq : ∀ {a b : String}, Reaches [] a b → a = b := by
  intro a b h
  induction h with
  | refl => rfl
  | step hab e he hs ht ih => cases he

/-- Every pair listed by `enumFrom` has its second component in the list. -/
theorem enumFrom_snd_mem {α : Type} :
    ∀ (l : List α) (n : Nat) (p : Nat × α), p ∈ List.enumFrom n l → p.2 ∈ l := by
  intro l
  induction l with
  | nil => intro n p h; cases h
  | cons a l ih =>
    intro n p h
    rcases List.mem_cons.mp h with h | h
    · rw [h]
      exact List.mem_cons_self a l
    · exact List.mem_cons_of_mem _ (ih (n + 1) p h)

/-- Ids assigned (in either map) by the child loop satisfy any predicate
that the pre-existing entries and all the children satisfy. -/
theorem bfsKids_reach (island nd : Nat) (R : String → Prop) :
    ∀ (cs : List String) (dm im : IdMap) (q : List QItem),
      (∀ c ∈ cs, R c) →
      (∀ k, ((dm k).isSome ∨ (im k).isSome) → R k) →
      ∀ k, (((bfsKids island nd cs dm im q).1 k).isSome ∨
          ((bfsKids island nd cs dm im q).2.1 k).isSome) → R k := by
  intro cs
  induction cs with
  | nil => intro dm im q _ hm k hk; exact hm k hk
  | cons c0 cs ih =>
    intro dm im q hcs hm k hk
    by_cases hc : (dm c0).isSome
    · rw [bfsKids, if_pos hc] at hk
      exact ih dm im q (fun c' hc' => hcs c' (List.mem_cons_of_mem _ hc')) hm k hk
    · rw [bfsKids, if_neg hc] at hk
      refine ih (dm.set c0 nd) (im.set c0 island) (q ++ [⟨c0, nd⟩])
        (fun c' hc' => hcs c' (List.mem_cons_of_mem _ hc')) ?_ k hk
      intro k' hk'
      by_cases hkc : k' = c0
      · exact hkc ▸ hcs c0 (List.mem_cons_self c0 cs)
      · apply hm k'
        simp only [IdMap.set] at hk'
        rw [if_neg hkc, if_neg hkc] at hk'
        exact hk'

/-- Every item in the queue produced by the child loop was already queued
or is one of the children. -/
theorem bfsKids_queue_mem (island nd : Nat) :
    ∀ (cs : List String) (dm im : IdMap) (q : List QItem),
      ∀ qi ∈ (bfsKids island nd cs dm im q).2.2, qi ∈ q ∨ qi.id ∈ cs := by
  intro cs
  induction cs with
  | nil => intro dm im q qi hqi; exact Or.inl hqi
  | cons c0 cs ih =>
    intro dm im q qi hqi
    by_cases hc : (dm c0).isSome
    · rw [bfsKids, if_pos hc] at hqi
      rcases ih dm im q qi hqi with h | h
      · exact Or.inl h
      · exact Or.inr (List.mem_cons_of_mem _ h)
    · rw [bfsKids, if_neg hc] at hqi
      rcases ih (dm.set c0 nd) (im.set c0 island) (q ++ [⟨c0, nd⟩]) qi hqi with h | h
      · rcases List.mem_append.mp h with h | h
        · exact Or.inl h
        · have : qi = ⟨c0, nd⟩ := by simpa using h
          exact Or.inr (this ▸ List.mem_cons_self c0 cs)
      · exact Or.inr (List.mem_cons_of_mem _ h)

/-- Ids assigned by the BFS while-loop satisfy any predicate `R` that is
closed under following an input edge forward, holds for all pre-existing
entries, and holds for all queued ids. -/
theorem bfsLoop_reach (edges : List GraphEdge) (island : Nat) (R : String → Prop)
    (hstep : ∀ a, R a → ∀ e ∈ edges, e.source = a → R e.target) :
    ∀ (fuel : Nat) (dm im : IdMap) (q : List QItem),
      (∀ k, ((dm k).isSome ∨ (im k).isSome) → R k) →
      (∀ qi ∈ q, R qi.id) →
      ∀ k, (((bfsLoop edges island fuel dm im q).1 k).isSome ∨
          ((bfsLoop edges island fuel dm im q).2 k).isSome) → R k := by
  intro fuel
  induction fuel with
  | zero => intro dm im q hm _ k hk; exact hm k hk
  | succ fuel ih =>
    intro dm im q hm hq k hk
    cases q with
    | nil => exact hm k hk
    | cons current rest =>
      simp only [bfsLoop] at hk
      set children :=
        (edges.filter (fun e => e.source == current.id)).map (fun e => e.target)
        with hch
      have hcs : ∀ c' ∈ children, R c' := by
        intro c' hc'
        rw [hch, List.mem_map] at hc'
        obtain ⟨e, he, het⟩ := hc'
        rw [List.mem_filter] at he
        exact het ▸ hstep current.id (hq current (List.mem_cons_self _ _)) e he.1
          (by simpa using he.2)
      have hrest : ∀ qi ∈ rest, R qi.id :=
        fun qi hqi => hq qi (List.mem_cons_of_mem _ hqi)
      refine ih _ _ _
        (bfsKids_reach island (current.depth + 1) R children dm im rest hcs hm) ?_ k hk
      intro qi hqi
      rcases bfsKids_queue_mem island (current.depth + 1) children dm im rest qi hqi
        with h | h
      · exact hrest qi h
      · exact hcs qi.id h

/-- Ids assigned by the full island loop satisfy any predicate `R` that
is closed under edges, holds for pre-existing entries, and holds for all
listed roots' ids. -/
theorem runIslands_reach (edges : List GraphEdge) (fuel : Nat) (R : String → Prop)
    (hstep : ∀ a, R a → ∀ e ∈ edges, e.source = a → R e.target) :
    ∀ (pairs : List (Nat × GraphNode)) (dm im : IdMap),
      (∀ p ∈ pairs, R p.2.id) →
      (∀ k, ((dm k).isSome ∨ (im k).isSome) → R k) →
      ∀ k, (((runIslands edges fuel pairs dm im).1 k).isSome ∨
          ((runIslands edges fuel pairs dm im).2 k).isSome) → R k := by
  intro pairs
  induction pairs with
  | nil => intro dm im _ hm k hk; exact hm k hk
  | cons pr rest ih =>
    intro dm im hp hm k hk
    obtain ⟨islandIndex, rootNode⟩ := pr
    simp only [runIslands] at hk
    have hroot : R rootNode.id := hp _ (List.mem_cons_self _ _)
    have hm' : ∀ k', (((dm.set rootNode.id 0) k').isSome ∨
        ((im.set rootNode.id islandIndex) k').isSome) → R k' := by
      intro k' hk'
      by_cases hkr : k' = rootNode.id
      · exact hkr ▸ hroot
      · apply hm k'
        simp only [IdMap.set] at hk'
        rw [if_neg hkr, if_neg hkr] at hk'
        exact hk'
    have hq' : ∀ qi ∈ [(⟨rootNode.id, 0⟩ : QItem)], R qi.id := by
      intro qi hqi
      have : qi = ⟨rootNode.id, 0⟩ := by simpa using hqi
      exact this ▸ hroot
    exact ih _ _ (fun p hp' => hp p (List.mem_cons_of_mem _ hp'))
      (bfsLoop_reach edges islandIndex R hstep fuel (dm.set rootNode.id 0)
        (im.set rootNode.id islandIndex) [⟨rootNode.id, 0⟩] hm' hq') k hk

/-! ## Claims -/

/-- C1 counterexample: with nodes `[A(root), B(generated)]` and the single
edge recorded as `B → A`, node B is adjacent to the root A when edges are
treated as undirected, so the claim predicts depth(B) = 1; but the BFS
follows edges only from `source` to `target`, so B is never discovered
and receives no depth or island at all.  The final conjuncts exhibit the
recorded edge, so B is undirected-reachable from root A. -/
theorem C1_undirected_counterexample :
    (calculateDepthsAndIslands [gA, gB] [eBA]).1 "B" = none ∧
      (calculateDepthsAndIslands [gA, gB] [eBA]).2 "B" = none ∧
      (calculateDepthsAndIslands [gA, gB] [eBA]).1 "A" = some 0 ∧
      eBA ∈ [eBA] ∧ eBA.source = "B" ∧ eBA.target = "A" ∧
      gB.ntype ≠ NodeType.root := by
  decide

/-- C1 amended: the BFS follows edges only in the `source → target`
direction, so a node is discovered (and assigned depth one greater than
its discoverer) only via an edge recording the discoverer as `source`;
when the input contains exactly one root-type node, every assigned id is
either that root at depth 0 or satisfies
`depth(child) = depth(parent) + 1` for some input edge `(parent, child)`.
(With several roots a later root's unconditional self re-seed can break
the depth relation; see C3.) -/
theorem C1_depth_parent_amended :
    ∀ (nodes : List GraphNode) (edges : List GraphEdge) (r : GraphNode),
      nodes.filter (fun n => n.ntype == NodeType.root) = [r] →
      ∀ c d, (calculateDepthsAndIslands nodes edges).1 c = some d →
        (c = r.id ∧ d = 0) ∨
          ∃ e ∈ edges, e.target = c ∧
            ∃ d', (calculateDepthsAndIslands nodes edges).1 e.source = some d' ∧
              d = d' + 1 := by
  intro nodes edges r hr c d hcd
  have hcalc : calculateDepthsAndIslands nodes edges =
      bfsLoop edges 0 (edges.length + 1) (IdMap.empty.set r.id 0)
        (IdMap.empty.set r.id 0) [⟨r.id, 0⟩] := by
    unfold calculateDepthsAndIslands
    rw [hr]
    rfl
  rw [hcalc] at hcd ⊢
  have h0 : ∀ c' d', (IdMap.empty.set r.id 0) c' = some d' →
      GoodEntry edges r.id (IdMap.empty.set r.id 0) c' d' := by
    intro c' d' h'
    by_cases hc : c' = r.id
    · subst hc
      have : d' = 0 := by
        simp [IdMap.set] at h'
        omega
      exact Or.inl ⟨rfl, this⟩
    · exfalso
      simp [IdMap.set, hc, IdMap.empty] at h'
  have hq0 : ∀ qi ∈ [(⟨r.id, 0⟩ : QItem)],
      (IdMap.empty.set r.id 0) qi.id = some qi.depth := by
    intro qi hqi
    have hqi' : qi = ⟨r.id, 0⟩ := by simpa using hqi
    rw [hqi']
    simp [IdMap.set]
  have hgood := bfsLoop_good edges r.id 0 (edges.length + 1)
    (IdMap.empty.set r.id 0) (IdMap.empty.set r.id 0) [⟨r.id, 0⟩] h0 hq0 c d hcd
  exact hgood

/-- Witness for C1 amended at the single-root graph `[A(root), B]` with
edge `A → B`: B's depth 1 is justified by the edge out of A. -/
theorem C1_depth_parent_amended_witness :
    ("B" = gA.id ∧ 1 = 0) ∨
      ∃ e ∈ [eAB], e.target = "B" ∧
        ∃ d', (calculateDepthsAndIslands [gA, gB] [eAB]).1 e.source = some d' ∧
          1 = d' + 1 :=
  C1_depth_parent_amended [gA, gB] [eAB] gA (by decide) "B" 1 (by decide)

/-- C2 counterexample: with nodes `[A(root), U(generated)]` and no edges,
topology analysis does leave U unassigned (first two conjuncts), but the
SimNode merge defaults the missing depth/island to 0, so U is rendered
with `getColorByDepthAndIsland 0 0` — the same depth-based color a root
gets — rather than being excluded from depth-based coloring. -/
theorem C2_unreachable_color_counterexample :
    (calculateDepthsAndIslands [gA, gU] []).1 "U" = none ∧
      (calculateDepthsAndIslands [gA, gU] []).2 "U" = none ∧
      (updateState MindMapState.empty [gA, gU] [] 0 800 600 jz phz).simNodes.map
          (fun s => nodeColor none s) =
        [getColorByDepthAndIsland 0 0, getColorByDepthAndIsland 0 0] := by
  refine ⟨by decide, by decide, by rfl⟩

/-- C2 amended: a node unreachable (along directed edges, hence in
particular unreachable in any sense) from every root-type node is indeed
left with no depth and no island entry by topology analysis; but the
SimNode merge then defaults both fields to 0
(`depthMap.get(node.id) ?? 0`), so the node is drawn with
`getColorByDepthAndIsland 0 0` — the depth-0/island-0 color — rather than
being excluded from depth-based coloring. -/
theorem C2_unreachable_unassigned_amended :
    ∀ (st : MindMapState) (nodes : List GraphNode) (edges : List GraphEdge)
      (now wd ht : ℚ) (jit : String → ℚ × ℚ) (ph : String → ℚ) (u : String),
      (∀ n ∈ nodes, n.ntype = NodeType.root → ¬ Reaches edges n.id u) →
      (calculateDepthsAndIslands nodes edges).1 u = none ∧
        (calculateDepthsAndIslands nodes edges).2 u = none ∧
        ∀ s ∈ (updateState st nodes edges now wd ht jit ph).simNodes, s.id = u →
          s.depth = 0 ∧ s.islandIndex = 0 ∧
            nodeColor none s = getColorByDepthAndIsland 0 0 := by
  intro st nodes edges now wd ht jit ph u hu
  have hstep : ∀ a, (∃ n ∈ nodes, n.ntype = NodeType.root ∧ Reaches edges n.id a) →
      ∀ e ∈ edges, e.source = a →
        ∃ n ∈ nodes, n.ntype = NodeType.root ∧ Reaches edges n.id e.target := by
    rintro a ⟨n, hn, hroot, hre⟩ e he hs
    exact ⟨n, hn, hroot, Reaches.step hre e he hs rfl⟩
  have hRu : ¬ ∃ n ∈ nodes, n.ntype = NodeType.root ∧ Reaches edges n.id u := by
    rintro ⟨n, hn, hroot, hre⟩
    exact hu n hn hroot hre
  have hmain : ∀ k, (((calculateDepthsAndIslands nodes edges).1 k).isSome ∨
      ((calculateDepthsAndIslands nodes edges).2 k).isSome) →
      ∃ n ∈ nodes, n.ntype = NodeType.root ∧ Reaches edges n.id k := by
    unfold calculateDepthsAndIslands
    refine runIslands_reach edges (edges.length + 1) _ hstep _ IdMap.empty IdMap.empty
      ?_ ?_
    · intro p hp
      have hmem : p.2 ∈ nodes.filter (fun n => n.ntype == NodeType.root) :=
        enumFrom_snd_mem _ 0 p hp
      rw [List.mem_filter] at hmem
      exact ⟨p.2, hmem.1, by simpa using hmem.2, Reaches.refl _⟩
    · intro k hk
      rcases hk with hk | hk <;> exact absurd hk (by simp [IdMap.empty])
  have hdm : (calculateDepthsAndIslands nodes edges).1 u = none := by
    cases h : (calculateDepthsAndIslands nodes edges).1 u with
    | none => rfl
    | some d => exact absurd (hmain u (Or.inl (by rw [h]; rfl))) hRu
  have him : (calculateDepthsAndIslands nodes edges).2 u = none := by
    cases h : (calculateDepthsAndIslands nodes edges).2 u with
    | none => rfl
    | some d => exact absurd (hmain u (Or.inr (by rw [h]; rfl))) hRu
  refine ⟨hdm, him, ?_⟩
  intro s hs hsid
  simp only [updateState, newSimNodesOf] at hs
  rw [List.mem_map] at hs
  obtain ⟨node, hn, heq⟩ := hs
  have hid : node.id = u := by
    rw [← hsid, ← heq]
    exact (mergeOne_id st.simNodes st.prevNodeIds _ _ now wd ht jit ph node).symm
  have hdm' : (calculateDepthsAndIslands nodes edges).1 node.id = none := by
    rw [hid]; exact hdm
  have him' : (calculateDepthsAndIslands nodes edges).2 node.id = none := by
    rw [hid]; exact him
  have hdepth : s.depth = 0 := by
    rw [← heq]
    cases hex : simNodeMap st.simNodes node.id <;>
      simp [mergeOne, hex, hdm']
  have hisl : s.islandIndex = 0 := by
    rw [← heq]
    cases hex : simNodeMap st.simNodes node.id <;>
      simp [mergeOne, hex, him']
  exact ⟨hdepth, hisl, by simp [nodeColor, hdepth, hisl]⟩

/-- Witness for C2 amended: the isolated generated node U in
`[A(root), U]` with no edges is unassigned yet rendered with the
depth-0/island-0 color. -/
theorem C2_unreachable_unassigned_amended_witness :
    (calculateDepthsAndIslands [gA, gU] []).1 "U" = none ∧
      (mergeOne MindMapState.empty.prevNodeIds (simNodeMap MindMapState.empty.simNodes)
          (calculateDepthsAndIslands [gA, gU] []).1
          (calculateDepthsAndIslands [gA, gU] []).2 0 800 600 jz phz gU).depth = 0 ∧
      nodeColor none
          (mergeOne MindMapState.empty.prevNodeIds (simNodeMap MindMapState.empty.simNodes)
            (calculateDepthsAndIslands [gA, gU] []).1
            (calculateDepthsAndIslands [gA, gU] []).2 0 800 600 jz phz gU) =
        getColorByDepthAndIsland 0 0 := by
  have hu : ∀ n ∈ [gA, gU], n.ntype = NodeType.root → ¬ Reaches [] n.id "U" := by
    intro n hn hroot hre
    have heq := reaches_nil_eq hre
    rcases List.mem_cons.mp hn with h | h
    · rw [h] at heq
      exact absurd heq (by decide)
    · have hgu : n = gU := by simpa using h
      rw [hgu] at hroot
      exact absurd hroot (by decide)
  have h := C2_unreachable_unassigned_amended MindMapState.empty [gA, gU] []
    0 800 600 jz phz "U" hu
  have hs : mergeOne MindMapState.empty.prevNodeIds (simNodeMap MindMapState.empty.simNodes)
      (calculateDepthsAndIslands [gA, gU] []).1
      (calculateDepthsAndIslands [gA, gU] []).2 0 800 600 jz phz gU ∈
      (updateState MindMapState.empty [gA, gU] [] 0 800 600 jz phz).simNodes := by
    simp only [updateState, newSimNodesOf]
    exact List.mem_map_of_mem _ (by decide)
  have hid : (mergeOne MindMapState.empty.prevNodeIds
      (simNodeMap MindMapState.empty.simNodes)
      (calculateDepthsAndIslands [gA, gU] []).1
      (calculateDepthsAndIslands [gA, gU] []).2 0 800 600 jz phz gU).id = "U" :=
    mergeOne_id MindMapState.empty.simNodes MindMapState.empty.prevNodeIds _ _
      0 800 600 jz phz gU
  obtain ⟨h1, h2, h3⟩ := h.2.2 _ hs hid
  exact ⟨h.1, h1, h3⟩

/-- C3 counterexample: with nodes `[A(root), B(root)]` and edge `A → B`,
island 0's traversal first assigns B depth 1 / island 0; the claim says
that assignment must survive, but B's own later seed unconditionally
overwrites it with depth 0 / island 1. -/
theorem C3_first_claim_counterexample :
    (calculateDepthsAndIslands [gA, gBroot] [eAB]).1 "B" = some 0 ∧
      (calculateDepthsAndIslands [gA, gBroot] [eAB]).2 "B" = some 1 ∧
      ¬((calculateDepthsAndIslands [gA, gBroot] [eAB]).1 "B" = some 1 ∧
        (calculateDepthsAndIslands [gA, gBroot] [eAB]).2 "B" = some 0) := by
  decide

/-- C3 amended: once an id has been assigned depth and island, all later
processing preserves the assignment — the BFS child loops never overwrite
(`!depthMap.has(childId)`) — provided the id is not itself the id of one
of the still-unprocessed roots: each later root's seed unconditionally
overwrites its own id's entry with depth 0 and its own island index (the
counterexample exhibits this). -/
theorem C3_first_claim_amended :
    ∀ (edges : List GraphEdge) (fuel : Nat) (pairs : List (Nat × GraphNode))
      (dm im : IdMap) (k : String),
      (dm k).isSome →
      k ∉ pairs.map (fun p => p.2.id) →
      (runIslands edges fuel pairs dm im).1 k = dm k ∧
        (runIslands edges fuel pairs dm im).2 k = im k := by
  intro edges fuel pairs
  induction pairs with
  | nil => intro dm im k _ _; exact ⟨rfl, rfl⟩
  | cons pr rest ih =>
    intro dm im k hk hnr
    obtain ⟨islandIndex, rootNode⟩ := pr
    rw [List.map_cons] at hnr
    have hkr : k ≠ rootNode.id := List.ne_of_not_mem_cons hnr
    have hnr' : k ∉ rest.map (fun p => p.2.id) := List.not_mem_of_not_mem_cons hnr
    simp only [runIslands]
    set seeded := bfsLoop edges islandIndex fuel (dm.set rootNode.id 0)
      (im.set rootNode.id islandIndex) [⟨rootNode.id, 0⟩] with hseeded
    have hd : (dm.set rootNode.id 0) k = dm k := by
      simp only [IdMap.set]
      rw [if_neg hkr]
    have hi : (im.set rootNode.id islandIndex) k = im k := by
      simp only [IdMap.set]
      rw [if_neg hkr]
    have hk1 : ((dm.set rootNode.id 0) k).isSome := by rw [hd]; exact hk
    obtain ⟨hl1, hl2⟩ := bfsLoop_preserve edges islandIndex fuel (dm.set rootNode.id 0)
      (im.set rootNode.id islandIndex) [⟨rootNode.id, 0⟩] k hk1
    rw [← hseeded] at hl1 hl2
    have hk2 : (seeded.1 k).isSome := by rw [hl1]; exact hk1
    obtain ⟨ha, hb⟩ := ih seeded.1 seeded.2 k hk2 hnr'
    exact ⟨ha.trans (hl1.trans hd), hb.trans (hl2.trans hi)⟩

/-- Witness for C3 amended: an assignment `X ↦ (5, 3)` present before a
root A is processed survives A's traversal. -/
theorem C3_first_claim_amended_witness :
    (runIslands [] 1 [(0, gA)] (IdMap.empty.set "X" 5) (IdMap.empty.set "X" 3)).1 "X" =
        (IdMap.empty.set "X" 5) "X" ∧
      (runIslands [] 1 [(0, gA)] (IdMap.empty.set "X" 5) (IdMap.empty.set "X" 3)).2 "X" =
        (IdMap.empty.set "X" 3) "X" :=
  C3_first_claim_amended [] 1 [(0, gA)] (IdMap.empty.set "X" 5) (IdMap.empty.set "X" 3)
    "X" (by decide) (by decide)

/-- C4: when a re-supplied id has an existing SimNode, the merge reuses it,
leaving position, velocity, entrance state, scale, glow and pulse phase
untouched, and mutating only label, type, reason, depth and islandIndex
(the latter two to the freshly computed map values).  In particular no
re-entrance animation is triggered: `entranceProgress`/`entranceStartTime`
keep their old values. -/
theorem C4_existing_node_preserved :
    ∀ (prevIds : List String) (exm : String → Option SimNode) (dm im : IdMap)
      (now wd ht : ℚ) (jit : String → ℚ × ℚ) (ph : String → ℚ)
      (node : GraphNode) (ex r : SimNode),
      exm node.id = some ex →
      r = mergeOne prevIds exm dm im now wd ht jit ph node →
      r.x = ex.x ∧ r.y = ex.y ∧ r.vx = ex.vx ∧ r.vy = ex.vy ∧
        r.entranceProgress = ex.entranceProgress ∧
        r.entranceStartTime = ex.entranceStartTime ∧
        r.scale = ex.scale ∧ r.glowIntensity = ex.glowIntensity ∧
        r.pulsePhase = ex.pulsePhase ∧
        r.label = node.label ∧ r.ntype = node.ntype ∧ r.reason = node.reason ∧
        r.depth = (dm node.id).getD 0 ∧ r.islandIndex = (im node.id).getD 0 := by
  intro prevIds exm dm im now wd ht jit ph node ex r hex hr
  subst hr
  simp [mergeOne, hex]

/-- Witness for C4 at a concrete input. -/
theorem C4_existing_node_preserved_witness :
    (mergeOne [] (fun _ => some (mkSim "A" 1 2)) IdMap.empty IdMap.empty 0 800 600
        jz phz gA).x = (mkSim "A" 1 2).x ∧
      (mergeOne [] (fun _ => some (mkSim "A" 1 2)) IdMap.empty IdMap.empty 0 800 600
        jz phz gA).entranceProgress = (mkSim "A" 1 2).entranceProgress :=
  ⟨(C4_existing_node_preserved [] _ IdMap.empty IdMap.empty 0 800 600 jz phz gA
      (mkSim "A" 1 2) _ rfl rfl).1,
    (C4_existing_node_preserved [] _ IdMap.empty IdMap.empty 0 800 600 jz phz gA
      (mkSim "A" 1 2) _ rfl rfl).2.2.2.2.1⟩

/-- C5: for any transform with `k` in the clamped scale range `[0.2, 5]`,
surface→simulation and simulation→surface are exact inverses; with
`k = 2, tx = 100, ty = 50`, a node at simulation `(10, 10)` is drawn at
surface `(120, 70)`, and a click at surface `(120, 70)` resolves to that
node. -/
theorem C5_viewport_inverse :
    ∀ (t : Transform) (p : ℚ × ℚ), 0.2 ≤ t.k → t.k ≤ 5 →
      (toScreen t (toSimulation t p) = p ∧ toSimulation t (toScreen t p) = p) ∧
        toScreen ⟨100, 50, 2⟩ (10, 10) = (120, 70) ∧
        findNodeAtPosition ⟨100, 50, 2⟩ [mkSim "N" 10 10] 120 70 =
          some (mkSim "N" 10 10) := by
  intro t p hlo hhi
  have hk : t.k ≠ 0 := ne_of_gt (lt_of_lt_of_le (by norm_num) hlo)
  refine ⟨⟨?_, ?_⟩, ?_, ?_⟩
  · simp only [toScreen, toSimulation, Prod.ext_iff]
    constructor <;> field_simp
  · simp only [toScreen, toSimulation, Prod.ext_iff]
    constructor <;> field_simp
  · norm_num [toScreen, Prod.ext_iff]
  · norm_num [findNodeAtPosition, findNodeAtPositionAux, mkSim, HIT_RADIUS]

/-- Witness for C5 at a concrete transform and point. -/
theorem C5_viewport_inverse_witness :
    toScreen ⟨7, 9, 2⟩ (toSimulation ⟨7, 9, 2⟩ (3, 4)) = (3, 4) ∧
      toSimulation ⟨7, 9, 2⟩ (toScreen ⟨7, 9, 2⟩ (3, 4)) = (3, 4) :=
  (C5_viewport_inverse ⟨7, 9, 2⟩ (3, 4) (by norm_num) (by norm_num)).1

/-- C6: picking converts the pointer position to simulation space and
returns the first node in list order within the fixed hit radius 40; a
click at the exact position of node N, with every other node at least 40
away and interactions enabled, fires `onNodeClick` with N's original
GraphNode payload.  The final conjunct shows ties are resolved by list
order: both listed nodes are within 40 of the probe, the nearer one is
second, and the first is returned. -/
theorem C6_pick_first_in_order :
    (∀ (t : Transform) (sims : List SimNode) (N : SimNode),
        t.k ≠ 0 → N ∈ sims →
        (∀ M ∈ sims, M ≠ N → HIT_RADIUS ^ 2 ≤ (M.x - N.x) ^ 2 + (M.y - N.y) ^ 2) →
        handleCanvasClick false t sims (N.x * t.k + t.x) (N.y * t.k + t.y) =
          some ⟨N.id, N.label, N.ntype, N.reason⟩) ∧
      findNodeAtPosition ⟨0, 0, 1⟩ [mkSim "far" 30 0, mkSim "near" 5 0] 0 0 =
        some (mkSim "far" 30 0) := by
  constructor
  · intro t sims N hk hmem hfar
    have hgx : (N.x * t.k + t.x - t.x) / t.k = N.x := by field_simp
    have hgy : (N.y * t.k + t.y - t.y) / t.k = N.y := by field_simp
    have hfind : findNodeAtPosition t sims (N.x * t.k + t.x) (N.y * t.k + t.y) =
        some N := by
      unfold findNodeAtPosition
      rw [hgx, hgy]
      exact findAux_hits sims hmem rfl rfl hfar
    simp [handleCanvasClick, hfind]
  · norm_num [findNodeAtPosition, findNodeAtPositionAux, mkSim, HIT_RADIUS]

/-- Witness for C6: a single node at the origin under the identity
transform is picked and reported with its GraphNode payload. -/
theorem C6_pick_first_in_order_witness :
    handleCanvasClick false ⟨0, 0, 1⟩ [mkSim "N" 0 0] 0 0 =
      some ⟨"N", "N", NodeType.generated, none⟩ := by
  have hfar : ∀ M ∈ [mkSim "N" 0 0], M ≠ mkSim "N" 0 0 →
      HIT_RADIUS ^ 2 ≤ (M.x - (mkSim "N" 0 0).x) ^ 2 + (M.y - (mkSim "N" 0 0).y) ^ 2 := by
    intro M hM hne
    exact absurd (List.mem_singleton.mp hM) hne
  have h := C6_pick_first_in_order.1 ⟨0, 0, 1⟩ [mkSim "N" 0 0] (mkSim "N" 0 0)
    (by norm_num) (List.mem_singleton_self _) hfar
  simpa [mkSim] using h

/-- C7: every SimLink produced by an update has both endpoints among the
produced SimNodes; the SimNode ids are exactly the input node ids (so
dangling edges neither add nor remove SimNodes); and concretely,
`nodes = [A(root)]`, `edges = [A → Z]` with Z absent yields no SimLinks
and a SimNode set containing only A. -/
theorem C7_dangling_edges_dropped :
    ∀ (st : MindMapState) (nodes : List GraphNode) (edges : List GraphEdge)
      (now wd ht : ℚ) (jit : String → ℚ × ℚ) (ph : String → ℚ),
      (∀ l ∈ (updateState st nodes edges now wd ht jit ph).simLinks,
          l.source ∈ (updateState st nodes edges now wd ht jit ph).simNodes ∧
            l.target ∈ (updateState st nodes edges now wd ht jit ph).simNodes) ∧
        (updateState st nodes edges now wd ht jit ph).simNodes.map (fun n => n.id) =
          nodes.map (fun n => n.id) ∧
        (updateState MindMapState.empty [gA] [eAZ] 0 800 600 jz phz).simLinks = [] ∧
        (updateState MindMapState.empty [gA] [eAZ] 0 800 600 jz phz).simNodes.map
          (fun n => n.id) = ["A"] := by
  intro st nodes edges now wd ht jit ph
  refine ⟨?_, ?_, by decide, by decide⟩
  · intro l hl
    simp only [updateState] at hl ⊢
    unfold newSimLinksOf at hl
    rw [List.mem_filterMap] at hl
    obtain ⟨e, _, hmatch⟩ := hl
    cases hs : simNodeMap (newSimNodesOf st nodes edges now wd ht jit ph) e.source with
    | none =>
      rw [hs] at hmatch
      simp at hmatch
    | some s =>
      cases ht2 : simNodeMap (newSimNodesOf st nodes edges now wd ht jit ph) e.target with
      | none =>
        rw [hs, ht2] at hmatch
        simp at hmatch
      | some tgt =>
        rw [hs, ht2] at hmatch
        have hl' : (⟨s, tgt, e.label⟩ : SimLink) = l := by simpa using hmatch
        rw [← hl']
        exact ⟨simNodeMap_mem hs, simNodeMap_mem ht2⟩
  · simp only [updateState, newSimNodesOf, List.map_map]
    exact List.map_congr_left fun node _ =>
      mergeOne_id st.simNodes st.prevNodeIds _ _ now wd ht jit ph node

/-- Witness for C7: on the two-node graph `[A(root), B]` with edge
`A → B`, the produced SimNode ids are `["A", "B"]`. -/
theorem C7_dangling_edges_dropped_witness :
    (updateState MindMapState.empty [gA, gB] [eAB] 0 800 600 jz phz).simNodes.map
      (fun n => n.id) = ["A", "B"] := by
  have h := (C7_dangling_edges_dropped MindMapState.empty [gA, gB] [eAB]
    0 800 600 jz phz).2.1
  rw [h]
  decide

/-- C8 counterexample to frame-rate independence: the per-frame scale
update `node.scale += (targetScale - node.scale) * 0.2` does not involve
the frame time at all, so covering the same wall-clock interval with one
frame (scale 1.05) or with two frames (scale 1.09) produces different
results — the animation speed depends on the frame rate, contradicting
"consistent regardless of frame time". -/
theorem C8_frame_time_counterexample :
    stepScale 1 1.25 = 1.05 ∧
      stepScale (stepScale 1 1.25) 1.25 = 1.09 ∧ (1.05 : ℚ) ≠ 1.09 :=
  ⟨by norm_num [stepScale], by norm_num [stepScale], by norm_num⟩

/-- C8 amended: each frame the scale moves by the fixed fraction 0.2 of
the remaining distance to its target (equivalently, the remaining
distance contracts by the factor 4/5 per frame — an exponential approach,
not a fixed step), with target 1.25 when the node is flagged as
expanding (taking precedence over hover), 1.15 when hovered, and 1.0
otherwise; the step is per-frame and does not depend on the frame time. -/
theorem C8_scale_damping :
    ∀ (s tg : ℚ) (hov : Bool),
      stepScale s tg - tg = (4 / 5) * (s - tg) ∧
        targetScaleOf true hov = 1.25 ∧
        targetScaleOf false true = 1.15 ∧
        targetScaleOf false false = 1 := by
  intro s tg hov
  refine ⟨?_, ?_, by norm_num [targetScaleOf], by norm_num [targetScaleOf]⟩
  · unfold stepScale
    norm_num
    ring
  · cases hov <;> norm_num [targetScaleOf]

/-- C9: the BFS enqueues edge targets without checking membership in the
node list, so with `nodes = [A(root)]` and `edges = [A → Z]` the returned
maps contain an entry for the phantom id Z, which is not among the
supplied node ids. -/
theorem C9_phantom_ids_assigned :
    (calculateDepthsAndIslands [gA] [eAZ]).1 "Z" = some 1 ∧
      (calculateDepthsAndIslands [gA] [eAZ]).2 "Z" = some 0 ∧
      "Z" ∉ [gA].map GraphNode.id := by
  decide

/-- C10: the entrance animation is gated on the previous update's node-id
set being non-empty (`isNew = !prev.has(id) && prev.size > 0`).  When the
previous set (and hence the SimNode store) is empty — at engine creation
and on the first update after a full clear — every produced SimNode
starts at `entranceProgress 1` with `entranceStartTime 0`, skipping the
animation; when the previous set is non-empty, a genuinely new id gets
`entranceProgress 0` and `entranceStartTime = now`. -/
theorem C10_entrance_gating :
    ∀ (st : MindMapState) (nodes : List GraphNode) (edges : List GraphEdge)
      (now wd ht : ℚ) (jit : String → ℚ × ℚ) (ph : String → ℚ),
      (st.prevNodeIds = [] → st.simNodes = [] →
        ∀ s ∈ (updateState st nodes edges now wd ht jit ph).simNodes,
          s.entranceProgress = 1 ∧ s.entranceStartTime = 0) ∧
      (∀ node ∈ nodes, st.prevNodeIds ≠ [] →
        st.prevNodeIds.contains node.id = false →
        simNodeMap st.simNodes node.id = none →
        mergeOne st.prevNodeIds (simNodeMap st.simNodes)
            (calculateDepthsAndIslands nodes edges).1
            (calculateDepthsAndIslands nodes edges).2 now wd ht jit ph node ∈
          (updateState st nodes edges now wd ht jit ph).simNodes ∧
        (mergeOne st.prevNodeIds (simNodeMap st.simNodes)
            (calculateDepthsAndIslands nodes edges).1
            (calculateDepthsAndIslands nodes edges).2 now wd ht jit ph
            node).entranceProgress = 0 ∧
        (mergeOne st.prevNodeIds (simNodeMap st.simNodes)
            (calculateDepthsAndIslands nodes edges).1
            (calculateDepthsAndIslands nodes edges).2 now wd ht jit ph
            node).entranceStartTime = now) := by
  intro st nodes edges now wd ht jit ph
  constructor
  · intro hprev hsim s hs
    simp only [updateState, newSimNodesOf] at hs
    rw [List.mem_map] at hs
    obtain ⟨node, _, heq⟩ := hs
    rw [← heq, hprev, hsim]
    simp [mergeOne, simNodeMap]
  · intro node hn hne hcont hnone
    have hie : st.prevNodeIds.isEmpty = false := by
      cases hp : st.prevNodeIds with
      | nil => exact absurd hp hne
      | cons a l => rfl
    have hnm : node.id ∉ st.prevNodeIds := by simpa using hcont
    refine ⟨?_, ?_, ?_⟩
    · simp only [updateState, newSimNodesOf]
      exact List.mem_map_of_mem _ hn
    · simp [mergeOne, hnone, hnm, hie]
    · simp [mergeOne, hnone, hnm, hie]

/-- Witness for C10: at engine creation (empty previous set) a node skips
the entrance animation; with a non-empty previous set a new id starts it
at `now = 7`. -/
theorem C10_entrance_gating_witness :
    (mergeOne MindMapState.empty.prevNodeIds (simNodeMap MindMapState.empty.simNodes)
        (calculateDepthsAndIslands [gA] []).1 (calculateDepthsAndIslands [gA] []).2
        7 800 600 jz phz gA).entranceProgress = 1 ∧
      (mergeOne ["A"] (simNodeMap []) (calculateDepthsAndIslands [gA, gB] []).1
        (calculateDepthsAndIslands [gA, gB] []).2 7 800 600 jz phz
        gB).entranceProgress = 0 := by
  constructor
  · have h1 := (C10_entrance_gating MindMapState.empty [gA] [] 7 800 600 jz phz).1
      rfl rfl
      (mergeOne MindMapState.empty.prevNodeIds (simNodeMap MindMapState.empty.simNodes)
        (calculateDepthsAndIslands [gA] []).1 (calculateDepthsAndIslands [gA] []).2
        7 800 600 jz phz gA)
      (by
        simp only [updateState, newSimNodesOf]
        exact List.mem_map_of_mem _ (by decide))
    exact h1.1
  · have h2 := (C10_entrance_gating ⟨[], [], ["A"]⟩ [gA, gB] [] 7 800 600 jz phz).2
      gB (by decide) (by decide) (by decide) rfl
    exact h2.2.1

end Gnosis
